import Mathlib

/-!
Verification of the cross-validated hyperparameter-selection and
performance-evaluation engine of `hw3.py`, together with its bag-of-words
feature extraction.  Python strings are modelled as lists of Unicode
codepoints (`List Nat`), continuous-valued predictions as rationals,
fallible computations (Python exceptions) as `Except String`.  The sklearn
metric helpers called by `performance` are modelled from their documented
behaviour (`confusion_matrix` tabulates over the sorted unique labels of
both arguments; `accuracy_score` is the fraction of equal entries; ...).
The SVC classifier is an external collaborator: its `fit` and
`decision_function` capabilities are abstracted as function parameters,
and the cross-validation score seen by the hyperparameter selectors is
abstracted as a function of the hyperparameters.
-/

/-- Codepoints of Python's `string.punctuation`
(the 32 ASCII characters that are neither alphanumeric nor whitespace),
in the order Python iterates over them in `extract_words`. -/
def punctList : List Nat :=
  [33, 34, 35, 36, 37, 38, 39, 40, 41, 42, 43, 44, 45, 46, 47,
   58, 59, 60, 61, 62, 63, 64, 91, 92, 93, 94, 95, 96, 123, 124, 125, 126]

/-- Whitespace codepoints recognised by Python's `str.split()` (ASCII range):
tab, newline, vertical tab, form feed, carriage return, space. -/
def isPySpace (c : Nat) : Bool := decide (c ∈ [9, 10, 11, 12, 13, 32])

/-- Python's `str.lower()` restricted to ASCII: uppercase letters are shifted
by 32, everything else is unchanged. -/
def pyToLower (c : Nat) : Nat := if 65 ≤ c ∧ c ≤ 90 then c + 32 else c

/-- Python's `input_string.replace(c, ' ' + c + ' ')` for a single-character
pattern: every occurrence of `c` is replaced by space, `c`, space. -/
def replaceChar (c : Nat) (s : List Nat) : List Nat :=
  s.flatMap (fun a => if a = c then [32, a, 32] else [a])

/-- The loop `for c in punctuation : input_string = input_string.replace(...)`
of `extract_words`. -/
def spacePunct (s : List Nat) : List Nat :=
  punctList.foldl (fun acc c => replaceChar c acc) s

/-- Helper for `pySplit`: the current in-progress word is carried in reverse. -/
def splitAux : List Nat → List Nat → List (List Nat)
  | [], acc => if acc = [] then [] else [acc.reverse]
  | c :: cs, acc =>
    if isPySpace c then
      (if acc = [] then splitAux cs [] else acc.reverse :: splitAux cs [])
    else splitAux cs (c :: acc)

/-- Python's `str.split()`: split on runs of whitespace, dropping empty words. -/
def pySplit (s : List Nat) : List (List Nat) := splitAux s []

/-- `extract_words` from `hw3.py`: isolate every punctuation character with
surrounding spaces, lowercase, then split on whitespace. -/
def extract_words (s : List Nat) : List (List Nat) :=
  pySplit ((spacePunct s).map pyToLower)

/-- Python's `' '.join(words)`. -/
def joinSp : List (List Nat) → List Nat
  | [] => []
  | [w] => w
  | w :: x :: ws => w ++ 32 :: joinSp (x :: ws)

/-- `np.sign` on one rational. -/
def pySign (x : ℚ) : Int := if x > 0 then 1 else if x < 0 then -1 else 0

/-- The binarization prologue of `performance`:
`y_label = np.sign(y_pred); y_label[y_label == 0] = 1`. -/
def binarize (y_pred : List ℚ) : List Int :=
  (y_pred.map pySign).map (fun v => if v = 0 then 1 else v)

/-- `metrics.accuracy_score`: fraction of positions where the labels agree
(the tested arrays always have equal length). -/
def accuracy_score (yt yl : List Int) : ℚ :=
  ((yt.zip yl).countP (fun p => decide (p.1 = p.2)) : ℚ) / (yt.length : ℚ)

/-- True positives for the positive class `1`. -/
def tpCount (yt yl : List Int) : Nat :=
  (yt.zip yl).countP (fun p => decide (p.1 = 1 ∧ p.2 = 1))

/-- False positives for the positive class `1`. -/
def fpCount (yt yl : List Int) : Nat :=
  (yt.zip yl).countP (fun p => decide (p.1 ≠ 1 ∧ p.2 = 1))

/-- False negatives for the positive class `1`. -/
def fnCount (yt yl : List Int) : Nat :=
  (yt.zip yl).countP (fun p => decide (p.1 = 1 ∧ p.2 ≠ 1))

/-- `metrics.precision_score` with sklearn's default zero-division
convention (score 0 when nothing is predicted positive). -/
def precision_score (yt yl : List Int) : ℚ :=
  if tpCount yt yl + fpCount yt yl = 0 then 0
  else (tpCount yt yl : ℚ) / ((tpCount yt yl : ℚ) + (fpCount yt yl : ℚ))

/-- `metrics.f1_score` with sklearn's default zero-division convention,
written as 2TP / (2TP + FP + FN). -/
def f1_score (yt yl : List Int) : ℚ :=
  if 2 * tpCount yt yl + fpCount yt yl + fnCount yt yl = 0 then 0
  else (2 * tpCount yt yl : ℚ) / ((2 * tpCount yt yl + fpCount yt yl + fnCount yt yl : ℚ))

/-- `metrics.roc_auc_score` in its Mann–Whitney formulation: the fraction of
(positive, negative) pairs ranked correctly, ties counting one half; sklearn
raises `ValueError` when only one class is present in `y_true`. -/
def roc_auc_score (yt : List Int) (yp : List ℚ) : Except String ℚ :=
  let pairs := yt.zip yp
  let pos := (pairs.filter (fun p => decide (p.1 = 1))).map (fun p => p.2)
  let neg := (pairs.filter (fun p => decide (p.1 ≠ 1))).map (fun p => p.2)
  if pos.length = 0 ∨ neg.length = 0 then Except.error "ValueError"
  else
    Except.ok
      ((pos.flatMap (fun sp =>
          neg.map (fun sn => if sn < sp then (1 : ℚ) else if sp = sn then 1/2 else 0))).sum /
        ((pos.length : ℚ) * (neg.length : ℚ)))

/-- `np.unique`: the sorted list of distinct values. -/
def npUnique (l : List Int) : List Int := List.insertionSort (· ≤ ·) l.dedup

/-- `metrics.confusion_matrix y_true y_pred`: entry `(i, j)` counts samples
with true label `labels[i]` and predicted label `labels[j]`, where `labels`
is the sorted list of distinct labels occurring in either argument.  Entries
are rational because the Python code divides them. -/
def confusion_matrix (yt yl : List Int) : List (List ℚ) :=
  let labels := npUnique (yt ++ yl)
  labels.map (fun a =>
    labels.map (fun b =>
      ((yt.zip yl).countP (fun p => decide (p.1 = a ∧ p.2 = b)) : ℚ)))

/-- Python sequence indexing `l[i]` for a non-negative index: out of range
raises `IndexError`. -/
def pyIdx {α : Type} (l : List α) (i : Nat) : Except String α :=
  match l[i]? with
  | some x => Except.ok x
  | none => Except.error "IndexError"

/-- `performance` from `hw3.py`.  The first component of the result collects
the strings printed to stdout; the second is the returned score, or the
exception the call raises. -/
def performance (y_true : List Int) (y_pred : List ℚ) (metric : String) :
    List String × Except String ℚ :=
  let y_label := binarize y_pred
  if metric = "accuracy" then ([], Except.ok (accuracy_score y_true y_label))
  else if metric = "f1-score" then ([], Except.ok (f1_score y_true y_label))
  else if metric = "auroc" then ([], roc_auc_score y_true y_pred)
  else if metric = "precision" then ([], Except.ok (precision_score y_true y_label))
  else if metric = "sensitivity" then
    ([], do
      let m := confusion_matrix y_true y_label
      let row1 ← pyIdx m 1
      let m11 ← pyIdx row1 1
      let m10 ← pyIdx row1 0
      if m11 = 0 ∧ m10 = 0 then pure 0 else pure (m11 / (m10 + m11)))
  else if metric = "specificity" then
    ([], do
      let m := confusion_matrix y_true y_label
      let row1 ← pyIdx m 1
      let m11 ← pyIdx row1 1
      let row0 ← pyIdx m 0
      let m01 ← pyIdx row0 1
      if m11 = 0 ∧ m01 = 0 then pure 0 else pure (m11 / (m11 + m01)))
  else (["Unknown Metrics!!!!!"], Except.ok 0)

/-- Specification-side definition of specificity, following the spec's words
verbatim for comparison with the code: true-negative over true-negative plus
false-positive on the binarized predictions, and 0 when both counts are 0. -/
def specificity_from_spec (y_true : List Int) (y_pred : List ℚ) : ℚ :=
  let y_label := binarize y_pred
  let tn : ℚ := ((y_true.zip y_label).countP (fun p => decide (p.1 = -1 ∧ p.2 = -1)) : ℚ)
  let fp : ℚ := ((y_true.zip y_label).countP (fun p => decide (p.1 = -1 ∧ p.2 = 1)) : ℚ)
  if tn = 0 ∧ fp = 0 then 0 else tn / (tn + fp)

/-- `X[train]`: the feature rows selected by a fold's train indices. -/
def trainX (X : List (List ℚ)) (fold : List Nat × List Nat) : List (List ℚ) :=
  fold.1.map (fun i => X.getD i [])

/-- `y[train]`: the labels selected by a fold's train indices. -/
def trainY (y : List Int) (fold : List Nat × List Nat) : List Int :=
  fold.1.map (fun i => y.getD i 0)

/-- `X[test]`: the feature rows selected by a fold's test indices. -/
def testX (X : List (List ℚ)) (fold : List Nat × List Nat) : List (List ℚ) :=
  fold.2.map (fun i => X.getD i [])

/-- `y[test]`: the labels selected by a fold's test indices. -/
def testY (y : List Int) (fold : List Nat × List Nat) : List Int :=
  fold.2.map (fun i => y.getD i 0)

/-- The fold loop of `cv_performance`.  The classifier object `clf` is the
mutable state `s : σ`; `clf.fit` is `fit` (returning the object's new state,
exactly as the Python object is re-fit in place each iteration) and
`clf.decision_function` is `dec`.  Each iteration appends the fold's
`performance` score; a raised exception aborts the loop. -/
def cvLoop {σ : Type} (fit : σ → List (List ℚ) → List Int → σ)
    (dec : σ → List (List ℚ) → List ℚ) (X : List (List ℚ)) (y : List Int)
    (metric : String) : σ → List (List Nat × List Nat) → Except String (List ℚ)
  | _, [] => Except.ok []
  | s, fold :: rest =>
    let s2 := fit s (trainX X fold) (trainY y fold)
    let y_pred := dec s2 (testX X fold)
    match (performance (testY y fold) y_pred metric).2 with
    | Except.error e => Except.error e
    | Except.ok sc => Except.map (fun l => sc :: l) (cvLoop fit dec X y metric s2 rest)

/-- `cv_performance` from `hw3.py`: run the fold loop starting from the
classifier's initial state `s0`, then return `np.average` of the collected
scores. -/
def cv_performance {σ : Type} (fit : σ → List (List ℚ) → List Int → σ)
    (dec : σ → List (List ℚ) → List ℚ) (s0 : σ) (X : List (List ℚ)) (y : List Int)
    (kf : List (List Nat × List Nat)) (metric : String) : Except String ℚ :=
  Except.map (fun scores => scores.sum / (scores.length : ℚ)) (cvLoop fit dec X y metric s0 kf)

/-- `C_range = 10.0 ** np.arange(-3, 3)`, as exact powers of ten. -/
def C_range : List ℚ := [1/1000, 1/100, 1/10, 1, 10, 100]

/-- `g_range = 10.0 ** np.arange(-3, 3)`, as exact powers of ten. -/
def g_range : List ℚ := [1/1000, 1/100, 1/10, 1, 10, 100]

/-- The (C, gamma) pairs visited by the nested loops of `select_param_rbf`,
outer loop over `C_range`, inner loop over `g_range`. -/
def gridPairs : List (ℚ × ℚ) :=
  C_range.flatMap (fun c => g_range.map (fun g => (c, g)))

/-- The index loop of `select_param_linear`:
`maxc = 0; for i in ...: if Res[i] > Res[maxc]: maxc = i`. -/
def argmaxIdx (res : List ℚ) : List Nat → Nat → Nat
  | [], maxc => maxc
  | i :: rest, maxc =>
    argmaxIdx res rest (if res.getD i 0 > res.getD maxc 0 then i else maxc)

/-- The selected index of the `Res` list in `select_param_linear`. -/
def selectIdx (res : List ℚ) : Nat := argmaxIdx res (List.range res.length) 0

/-- `select_param_linear` from `hw3.py`.  The cross-validation score of the
linear-kernel SVC at parameter `C = c` is abstracted as `f c` (classifier
training is an external capability); the function computes the score list
`Res` over `C_range` and returns `C_range[maxc]` for the loop-selected
index `maxc`. -/
def select_param_linear (f : ℚ → ℚ) : ℚ :=
  let res := C_range.map f
  C_range.getD (selectIdx res) 0

/-- One iteration of the `select_param_rbf` loops from `hw3.py`: the
cross-validation score of the RBF-kernel SVC at `(C, gamma) = (c, g)` is
abstracted as `f c g`; the running maximum state `(maxc, maxg, maxv)` is
replaced whenever a strictly larger score appears. -/
def rbfStep (f : ℚ → ℚ → ℚ) (st : ℚ × ℚ × ℚ) (p : ℚ × ℚ) : ℚ × ℚ × ℚ :=
  let r := f p.1 p.2
  if r > st.2.2 then (p.1, p.2, r) else st

/-- `select_param_rbf` continued: the fold of `rbfStep` over the grid. -/
def select_param_rbf (f : ℚ → ℚ → ℚ) : ℚ × ℚ × ℚ :=
  gridPairs.foldl (rbfStep f) (0, 0, 0)

/-- Python `dict` lookup `word_list[s]` for a dictionary given as an
association list with distinct keys. -/
def dictGet : List (List Nat × Nat) → List Nat → Option Nat
  | [], _ => none
  | p :: rest, k => if p.1 = k then some p.2 else dictGet rest k

/-- One iteration block of `extract_feature_vectors`: starting from a zero
row of width `numW`, execute `feature_matrix[lc][word_list[s]] = 1` for each
token `s` of the line.  A missing dictionary key raises `KeyError`; an
assignment outside the row raises `IndexError`. -/
def setTok (wl : List (List Nat × Nat)) (row : List ℚ) (s : List Nat) :
    Except String (List ℚ) :=
  match dictGet wl s with
  | none => Except.error "KeyError"
  | some j =>
    if j < row.length then Except.ok (row.set j 1) else Except.error "IndexError"

/-- `lineRow` continued: fold the assignments over the line's tokens. -/
def lineRow (wl : List (List Nat × Nat)) (numW : Nat) (line : List Nat) :
    Except String (List ℚ) :=
  (extract_words line).foldlM (setTok wl) (List.replicate numW 0)

/-- `extract_feature_vectors` from `hw3.py`: the file is given as its list of
lines; the matrix has one row per line (`num_lines` counts every line) and
`len(word_list)` columns. -/
def extract_feature_vectors (lines : List (List Nat)) (wl : List (List Nat × Nat)) :
    Except String (List (List ℚ)) :=
  lines.mapM (lineRow wl wl.length)

/-- One-pass form of the punctuation replacement: the block a single
character contributes to `spacePunct`. -/
def puncted (a : Nat) : List Nat :=
  if a ∈ punctList then [32, a, 32] else [a]

/-- The block a single character contributes to the lowercased,
punctuation-spaced form of a string. -/
def punctedLower (a : Nat) : List Nat := (puncted a).map pyToLower

/-- Bind on `Except` applied to a success, for rewriting. -/
theorem ok_bind {ε α β : Type} (a : α) (f : α → Except ε β) :
    (Except.ok a : Except ε α) >>= f = f a := rfl

/-- Bind on `Except` applied to a failure, for rewriting. -/
theorem error_bind {ε α β : Type} (e : ε) (f : α → Except ε β) :
    (Except.error e : Except ε α) >>= f = Except.error e := rfl

/-- `pure` on `Except` is `Except.ok`, for rewriting. -/
theorem pure_eq_ok {ε α : Type} (a : α) : (pure a : Except ε α) = Except.ok a := rfl

/-- C4: `performance` binarizes continuous predictions by sign with
exactly-zero predictions mapped to +1, and on `y_true = [1,1,-1,-1]`,
`y_pred = [2.0, 0.0, -1.0, 1.0]` the accuracy metric returns exactly 0.75
(the binarized predictions `[1,1,-1,1]` match at three of four positions). -/
theorem performance_accuracy_binarization :
    (∀ x : ℚ, binarize [x] = [if 0 ≤ x then 1 else -1]) ∧
    performance [1, 1, -1, -1] [2, 0, -1, 1] "accuracy" = ([], Except.ok (3/4)) := by
  constructor
  · intro x
    rcases lt_trichotomy x 0 with h | h | h
    · simp [binarize, pySign, h, not_lt.mpr (le_of_lt h), not_le.mpr h, asymm h]
    · simp [binarize, pySign, h]
    · simp [binarize, pySign, h, not_lt.mpr (le_of_lt h), le_of_lt h, asymm h]
  · simp [performance, binarize, pySign, accuracy_score]
    norm_num

/-- C2 counterexample: on an unknown metric name the code does not fail; it
prints a message and returns the default score value 0. -/
theorem performance_unknown_metric_counterexample :
    performance [1] [1] "unknown" = (["Unknown Metrics!!!!!"], Except.ok 0) := by
  simp [performance]

/-- C2 (amended): for every pair of label/prediction arrays, calling
`performance` with a metric name outside the six known ones prints
`Unknown Metrics!!!!!` and returns the default score 0; it does not raise. -/
theorem performance_unknown_metric_returns_zero (y_true : List Int) (y_pred : List ℚ)
    (metric : String)
    (h : metric ∉ ["accuracy", "f1-score", "auroc", "precision", "sensitivity", "specificity"]) :
    performance y_true y_pred metric = (["Unknown Metrics!!!!!"], Except.ok 0) := by
  simp only [List.mem_cons, List.not_mem_nil, or_false, not_or] at h
  obtain ⟨h1, h2, h3, h4, h5, h6⟩ := h
  simp [performance, h1, h2, h3, h4, h5, h6]

/-- Witness for C2's amended theorem at the concrete metric name `unknown`. -/
theorem performance_unknown_metric_returns_zero_witness :
    "unknown" ∉ ["accuracy", "f1-score", "auroc", "precision", "sensitivity", "specificity"] ∧
    performance [1] [1] "unknown" = (["Unknown Metrics!!!!!"], Except.ok 0) :=
  ⟨by simp, performance_unknown_metric_returns_zero [1] [1] "unknown" (by simp)⟩

/-- C1: the `specificity` branch of `performance` computes
`m[1][1]/(m[1][1]+m[0][1])`, i.e. TP/(TP+FP), not TN/(TN+FP): on
`y_true = [-1,-1]`, `y_pred = [-1.0, 1.0]` the code returns 0 while the
specified specificity is 1/2. -/
theorem performance_specificity_at_failing_input :
    performance [-1, -1] [-1, 1] "specificity" = ([], Except.ok 0) ∧
    specificity_from_spec [-1, -1] [-1, 1] = 1/2 := by
  constructor
  · simp [performance, binarize, pySign]
    norm_num [confusion_matrix, npUnique, List.insertionSort, List.orderedInsert,
      pyIdx, ok_bind, error_bind, pure_eq_ok]
  · norm_num [specificity_from_spec, binarize, pySign]

/-- C7: with `y_true = [-1,-1,-1]` and all-negative predictions the confusion
matrix is 1×1, so `m[1][1]` raises `IndexError` instead of returning 0; with
at least one positive prediction the zero-count guard does return 0. -/
theorem performance_sensitivity_at_failing_input :
    performance [-1, -1, -1] [-1, -1, -1] "sensitivity" = ([], Except.error "IndexError") ∧
    performance [-1, -1, -1] [1, -1, -1] "sensitivity" = ([], Except.ok 0) := by
  constructor
  · simp [performance, binarize, pySign]
    norm_num [confusion_matrix, npUnique, List.insertionSort, List.orderedInsert,
      pyIdx, ok_bind, error_bind, pure_eq_ok]
  · simp [performance, binarize, pySign]
    norm_num [confusion_matrix, npUnique, List.insertionSort, List.orderedInsert,
      pyIdx, ok_bind, error_bind, pure_eq_ok]

/-- Fold invariant for the `select_param_rbf` loops: the final state's value
bounds every visited score and the initial value, and the final state is
either still the initial state or a visited pair tagged with its own score. -/
theorem rbfStep_foldl_spec (f : ℚ → ℚ → ℚ) (l : List (ℚ × ℚ)) :
    ∀ st : ℚ × ℚ × ℚ,
      (∀ p ∈ l, f p.1 p.2 ≤ (l.foldl (rbfStep f) st).2.2) ∧
      st.2.2 ≤ (l.foldl (rbfStep f) st).2.2 ∧
      (l.foldl (rbfStep f) st = st ∨
        (((l.foldl (rbfStep f) st).1, (l.foldl (rbfStep f) st).2.1) ∈ l ∧
          (l.foldl (rbfStep f) st).2.2 =
            f (l.foldl (rbfStep f) st).1 (l.foldl (rbfStep f) st).2.1)) := by
  induction l with
  | nil => intro st; simp
  | cons p l ih =>
    intro st
    obtain ⟨ihmax, ihmono, ihdisj⟩ := ih (rbfStep f st p)
    rw [List.foldl_cons]
    refine ⟨?_, ?_, ?_⟩
    · intro q hq
      rcases List.mem_cons.mp hq with rfl | hq
      · have h1 : f q.1 q.2 ≤ (rbfStep f st q).2.2 := by
          unfold rbfStep
          dsimp only
          split_ifs with h
          · exact le_refl _
          · exact le_of_not_lt h
        exact h1.trans ihmono
      · exact ihmax q hq
    · have h1 : st.2.2 ≤ (rbfStep f st p).2.2 := by
        unfold rbfStep
        dsimp only
        split_ifs with h
        · exact le_of_lt h
        · exact le_refl _
      exact h1.trans ihmono
    · rcases ihdisj with heq | ⟨hmem, hval⟩
      · rw [heq]
        unfold rbfStep
        dsimp only
        split_ifs with h
        · right
          exact ⟨List.mem_cons_self p l, rfl⟩
        · left; rfl
      · right
        exact ⟨List.mem_cons_of_mem p hmem, hval⟩

/-- C3 counterexample: when every grid score is 0 (e.g. a degenerate metric),
no update beats the sentinel and `select_param_rbf` returns `(0, 0, 0)`,
whose `(C, gamma)` part is not a member of the 36-pair grid. -/
theorem select_param_rbf_sentinel_counterexample :
    select_param_rbf (fun _ _ => 0) = (0, 0, 0) ∧
    ((0 : ℚ), (0 : ℚ)) ∉ gridPairs := by
  constructor
  · simp [select_param_rbf, rbfStep, gridPairs, C_range, g_range]
  · norm_num [gridPairs, C_range, g_range, Prod.ext_iff]

/-- C3 (amended): `select_param_rbf` sweeps the 36-pair grid with the running
maximum initialized at the sentinel `(0, 0, 0)`; provided some grid pair has
a strictly positive score, the returned `(C, gamma)` is a member of the grid,
the returned value is that pair's score, and it attains the maximum score
over the grid. -/
theorem select_param_rbf_selects_max (f : ℚ → ℚ → ℚ)
    (hpos : ∃ p ∈ gridPairs, 0 < f p.1 p.2) :
    gridPairs.length = 36 ∧
    ((select_param_rbf f).1, (select_param_rbf f).2.1) ∈ gridPairs ∧
    (select_param_rbf f).2.2 = f (select_param_rbf f).1 (select_param_rbf f).2.1 ∧
    ∀ p ∈ gridPairs, f p.1 p.2 ≤ (select_param_rbf f).2.2 := by
  obtain ⟨q, hq, hqpos⟩ := hpos
  obtain ⟨hmax, hmono, hdisj⟩ := rbfStep_foldl_spec f gridPairs (0, 0, 0)
  have hfold : select_param_rbf f = gridPairs.foldl (rbfStep f) (0, 0, 0) := rfl
  have hv : 0 < (select_param_rbf f).2.2 := by
    rw [hfold]
    exact lt_of_lt_of_le hqpos (hmax q hq)
  rcases hdisj with heq | ⟨hmem, hval⟩
  · exfalso
    rw [hfold, heq] at hv
    exact lt_irrefl 0 hv
  · refine ⟨rfl, ?_, ?_, ?_⟩
    · rw [hfold]; exact hmem
    · rw [hfold]; exact hval
    · intro p hp
      rw [hfold]
      exact hmax p hp

/-- Witness for C3's amended theorem at the constant score function 1. -/
theorem select_param_rbf_selects_max_witness :
    gridPairs.length = 36 ∧
    ((select_param_rbf fun _ _ => (1 : ℚ)).1,
      (select_param_rbf fun _ _ => (1 : ℚ)).2.1) ∈ gridPairs ∧
    (select_param_rbf fun _ _ => (1 : ℚ)).2.2 = 1 ∧
    ∀ p ∈ gridPairs, (1 : ℚ) ≤ (select_param_rbf fun _ _ => (1 : ℚ)).2.2 :=
  select_param_rbf_selects_max (fun _ _ => 1)
    ⟨(1/1000, 1/1000), by norm_num [gridPairs, C_range, g_range], by norm_num⟩

/-- The index loop of `select_param_linear`, run over the indices
`s, s+1, ..., s+n-1`: the resulting index stays in range, its score bounds
all scores with index below `s + n`, and every index below the result has a
strictly smaller score (so ties go to the first-encountered index). -/
theorem argmaxIdx_range_spec (res : List ℚ) :
    ∀ (n s maxc : Nat), maxc < max s 1 →
      (∀ j, j < s → res.getD j 0 ≤ res.getD maxc 0) →
      (∀ j, j < maxc → res.getD j 0 < res.getD maxc 0) →
      argmaxIdx res (List.range' s n) maxc < max (s + n) 1 ∧
      (∀ j, j < s + n → res.getD j 0 ≤ res.getD (argmaxIdx res (List.range' s n) maxc) 0) ∧
      (∀ j, j < argmaxIdx res (List.range' s n) maxc →
        res.getD j 0 < res.getD (argmaxIdx res (List.range' s n) maxc) 0) := by
  intro n
  induction n with
  | zero =>
    intro s maxc hin hle hlt
    simp only [List.range', argmaxIdx, Nat.add_zero]
    exact ⟨hin, hle, hlt⟩
  | succ n ih =>
    intro s maxc hin hle hlt
    rw [List.range'_succ]
    simp only [argmaxIdx]
    have harr : s + (n + 1) = (s + 1) + n := by omega
    rw [harr]
    by_cases h : res.getD s 0 > res.getD maxc 0
    · rw [if_pos h]
      refine ih (s + 1) s (by omega) ?_ ?_
      · intro j hj
        rcases Nat.lt_succ_iff_lt_or_eq.mp hj with hj | rfl
        · exact (hle j hj).trans (le_of_lt h)
        · exact le_refl _
      · intro j hj
        exact lt_of_le_of_lt (hle j hj) h
    · rw [if_neg h]
      refine ih (s + 1) maxc (by omega) ?_ hlt
      intro j hj
      rcases Nat.lt_succ_iff_lt_or_eq.mp hj with hj | rfl
      · exact hle j hj
      · exact le_of_not_lt h

/-- Specification of `selectIdx`: the selected index of `Res` is in range
(when `Res` is non-empty), attains the maximum entry, and is the first index
to do so. -/
theorem selectIdx_spec (res : List ℚ) :
    selectIdx res < max res.length 1 ∧
    (∀ j, j < res.length → res.getD j 0 ≤ res.getD (selectIdx res) 0) ∧
    (∀ j, j < selectIdx res → res.getD j 0 < res.getD (selectIdx res) 0) := by
  have h := argmaxIdx_range_spec res res.length 0 0 (by omega)
    (fun j hj => absurd hj (Nat.not_lt_zero j))
    (fun j hj => absurd hj (Nat.not_lt_zero j))
  simpa only [selectIdx, List.range_eq_range', Nat.zero_add] using h

/-- `getD` through `map` at an in-range index. -/
theorem getD_map_lt (f : ℚ → ℚ) (l : List ℚ) (j : Nat) (h : j < l.length) :
    (l.map f).getD j 0 = f (l.getD j 0) := by
  rw [List.getD_eq_getElem l 0 h, List.getD_eq_getElem _ 0 (by simpa using h)]
  simp

/-- C6: `select_param_linear` returns a member of the C grid whose score is
maximal, every earlier grid entry scores strictly less (ties break toward
the first-encountered, lowest C), and a strict unique maximizer is returned
exactly. -/
theorem select_param_linear_selects_max (f : ℚ → ℚ) :
    select_param_linear f ∈ C_range ∧
    (∀ c ∈ C_range, f c ≤ f (select_param_linear f)) ∧
    (∀ j, j < selectIdx (C_range.map f) →
      f (C_range.getD j 0) < f (select_param_linear f)) ∧
    (∀ c ∈ C_range, (∀ d ∈ C_range, d ≠ c → f d < f c) → select_param_linear f = c) := by
  obtain ⟨hlt, hle, hstrict⟩ := selectIdx_spec (C_range.map f)
  have hClen : C_range.length = 6 := rfl
  have hlen : (C_range.map f).length = 6 := by simp [hClen]
  have hi : selectIdx (C_range.map f) < 6 := by
    rw [hlen] at hlt
    omega
  have hsel : select_param_linear f = C_range.getD (selectIdx (C_range.map f)) 0 := rfl
  have hle' : ∀ j, j < 6 → f (C_range.getD j 0) ≤ f (select_param_linear f) := by
    intro j hj
    have h1 := hle j (by rw [hlen]; exact hj)
    rwa [getD_map_lt f C_range j (by rw [hClen]; exact hj),
      getD_map_lt f C_range _ (by rw [hClen]; exact hi), ← hsel] at h1
  have hstrict' : ∀ j, j < selectIdx (C_range.map f) →
      f (C_range.getD j 0) < f (select_param_linear f) := by
    intro j hj
    have h1 := hstrict j hj
    rwa [getD_map_lt f C_range j (by rw [hClen]; omega),
      getD_map_lt f C_range _ (by rw [hClen]; exact hi), ← hsel] at h1
  have hmem : select_param_linear f ∈ C_range := by
    rw [hsel]
    interval_cases h : selectIdx (C_range.map f) <;> norm_num [C_range]
  have hall : ∀ c ∈ C_range, f c ≤ f (select_param_linear f) := by
    intro c hc
    fin_cases hc
    · exact le_of_eq_of_le (by norm_num [C_range]) (hle' 0 (by omega))
    · exact le_of_eq_of_le (by norm_num [C_range]) (hle' 1 (by omega))
    · exact le_of_eq_of_le (by norm_num [C_range]) (hle' 2 (by omega))
    · exact le_of_eq_of_le (by norm_num [C_range]) (hle' 3 (by omega))
    · exact le_of_eq_of_le (by norm_num [C_range]) (hle' 4 (by omega))
    · exact le_of_eq_of_le (by norm_num [C_range]) (hle' 5 (by omega))
  refine ⟨hmem, hall, hstrict', ?_⟩
  intro c hc huniq
  by_contra hne
  exact absurd (huniq _ hmem hne) (not_lt.mpr (hall c hc))

/-- Witness for C6 at the identity score function, whose strict unique
maximizer over the grid is C = 100. -/
theorem select_param_linear_selects_max_witness :
    select_param_linear (fun c => c) = 100 := by
  have h := (select_param_linear_selects_max (fun c => c)).2.2.2
  refine h 100 (by norm_num [C_range]) ?_
  intro d hd hne
  fin_cases hd <;> norm_num at hne ⊢

/-- The fold loop computes the per-fold scores independently: under the
sklearn contract that re-fitting overwrites all prior learned state
(`fit` does not depend on the classifier's current state), the loop started
from any state returns exactly the list of per-fold scores, each obtained
from a classifier trained on that fold's train subset alone. -/
theorem cvLoop_ok {σ : Type} (fit : σ → List (List ℚ) → List Int → σ)
    (dec : σ → List (List ℚ) → List ℚ) (X : List (List ℚ)) (y : List Int)
    (metric : String) (sc : List Nat × List Nat → ℚ) (s0 : σ)
    (hfit : ∀ s s' Xtr ytr, fit s Xtr ytr = fit s' Xtr ytr) :
    ∀ kf : List (List Nat × List Nat),
      (∀ fold ∈ kf,
        (performance (testY y fold)
            (dec (fit s0 (trainX X fold) (trainY y fold)) (testX X fold)) metric).2 =
          Except.ok (sc fold)) →
      ∀ s, cvLoop fit dec X y metric s kf = Except.ok (kf.map sc) := by
  intro kf
  induction kf with
  | nil => intro _ s; rfl
  | cons fold rest ih =>
    intro hok s
    have h1 : fit s (trainX X fold) (trainY y fold) =
        fit s0 (trainX X fold) (trainY y fold) := hfit _ _ _ _
    simp only [cvLoop]
    rw [h1, hok fold (List.mem_cons_self fold rest),
      ih (fun f hf => hok f (List.mem_cons_of_mem fold hf)) _]
    rfl

/-- C5: `cv_performance` evaluates one score per fold of the partition and
returns the arithmetic mean of the per-fold scores, where each fold's score
is the `performance` of the metric on the continuous decision scores of that
fold's test subset under a classifier trained on that fold's train subset
alone — no state is carried between folds (hypothesis `hfit` is sklearn's
documented contract that fitting overwrites any previously learned state). -/
theorem cv_performance_mean_of_folds {σ : Type} (fit : σ → List (List ℚ) → List Int → σ)
    (dec : σ → List (List ℚ) → List ℚ) (s0 : σ) (X : List (List ℚ)) (y : List Int)
    (kf : List (List Nat × List Nat)) (metric : String) (sc : List Nat × List Nat → ℚ)
    (hfit : ∀ s s' Xtr ytr, fit s Xtr ytr = fit s' Xtr ytr)
    (hok : ∀ fold ∈ kf,
      (performance (testY y fold)
          (dec (fit s0 (trainX X fold) (trainY y fold)) (testX X fold)) metric).2 =
        Except.ok (sc fold)) :
    cv_performance fit dec s0 X y kf metric =
      Except.ok ((kf.map sc).sum / ((kf.map sc).length : ℚ)) ∧
    (kf.map sc).length = kf.length := by
  constructor
  · unfold cv_performance
    rw [cvLoop_ok fit dec X y metric sc s0 hfit kf hok s0]
    rfl
  · simp

/-- Witness for C5: a two-fold partition on a two-sample set with a stateless
classifier whose decision score is constantly 1; each fold has accuracy 1 and
the mean is 1. -/
theorem cv_performance_mean_of_folds_witness :
    cv_performance (fun (_ : Unit) (_ : List (List ℚ)) (_ : List Int) => ())
        (fun _ Xte => Xte.map (fun _ => (1 : ℚ))) () [[1], [2]] [1, 1]
        [([0], [1]), ([1], [0])] "accuracy" = Except.ok 1 := by
  have h := cv_performance_mean_of_folds (fun (_ : Unit) (_ : List (List ℚ)) (_ : List Int) => ())
    (fun _ Xte => Xte.map (fun _ => (1 : ℚ))) () [[1], [2]] [1, 1]
    [([0], [1]), ([1], [0])] "accuracy" (fun _ => 1)
    (fun _ _ _ _ => rfl)
    (by
      intro fold hfold
      fin_cases hfold <;>
        simp [performance, testY, testX, trainX, trainY, binarize, pySign, accuracy_score])
  rw [h.1]
  norm_num

/-- `getD` after `set`: the written value at the written index (when in
range), the old value elsewhere. -/
theorem getD_set_eq (l : List ℚ) (j k : Nat) (v : ℚ) :
    (l.set j v).getD k 0 = if j = k ∧ j < l.length then v else l.getD k 0 := by
  induction l generalizing j k with
  | nil => simp [List.getD]
  | cons a l ih =>
    cases j with
    | zero =>
      cases k with
      | zero => simp [List.getD]
      | succ k => simp [List.getD]
    | succ j =>
      cases k with
      | zero => simp [List.getD]
      | succ k =>
        simp only [List.set, List.getD_cons_succ, List.length_cons, ih j k]
        refine if_congr ?_ rfl rfl
        constructor
        · rintro ⟨rfl, h⟩
          exact ⟨rfl, by omega⟩
        · rintro ⟨h, h2⟩
          exact ⟨by omega, by omega⟩

/-- A successful dictionary lookup returns the value of some stored pair. -/
theorem dictGet_some_mem :
    ∀ (wl : List (List Nat × Nat)) (k : List Nat) (j : Nat),
      dictGet wl k = some j → ∃ p ∈ wl, p.2 = j := by
  intro wl
  induction wl with
  | nil => intro k j h; cases h
  | cons p wl ih =>
    intro k j h
    by_cases hp : p.1 = k
    · simp only [dictGet, if_pos hp, Option.some.injEq] at h
      exact ⟨p, List.mem_cons_self p wl, h⟩
    · simp only [dictGet, if_neg hp] at h
      obtain ⟨q, hq, h2⟩ := ih k j h
      exact ⟨q, List.mem_cons_of_mem p hq, h2⟩

/-- When every token of the list is present in the dictionary with an
in-range index, the assignment fold succeeds and produces a row whose entry
at `k` is 1 exactly when some token maps to `k`, and is otherwise the
starting row's entry. -/
theorem setTok_fold_ok (wl : List (List Nat × Nat)) :
    ∀ (ws : List (List Nat)) (row : List ℚ),
      (∀ w ∈ ws, ∃ j, dictGet wl w = some j ∧ j < row.length) →
      ∃ r, ws.foldlM (setTok wl) row = Except.ok r ∧ r.length = row.length ∧
        ∀ k, r.getD k 0 = if ∃ w ∈ ws, dictGet wl w = some k then 1 else row.getD k 0 := by
  intro ws
  induction ws with
  | nil =>
    intro row _
    exact ⟨row, rfl, rfl, by simp⟩
  | cons w ws ih =>
    intro row h
    obtain ⟨j, hj, hjlt⟩ := h w (List.mem_cons_self w ws)
    obtain ⟨r, hr, hrlen, hrchar⟩ := ih (row.set j 1)
      (by
        intro w2 hw2
        obtain ⟨j2, hj2, hj2lt⟩ := h w2 (List.mem_cons_of_mem w hw2)
        exact ⟨j2, hj2, by simpa using hj2lt⟩)
    refine ⟨r, ?_, by simpa using hrlen, ?_⟩
    · rw [List.foldlM_cons]
      have hstep : setTok wl row w = Except.ok (row.set j 1) := by
        simp [setTok, hj, hjlt]
      rw [hstep, ok_bind]
      exact hr
    · intro k
      rw [hrchar k]
      by_cases hex : ∃ w2 ∈ ws, dictGet wl w2 = some k
      · have hex2 : ∃ w2 ∈ w :: ws, dictGet wl w2 = some k := by
          obtain ⟨w2, hw2, h2⟩ := hex
          exact ⟨w2, List.mem_cons_of_mem w hw2, h2⟩
        rw [if_pos hex, if_pos hex2]
      · rw [if_neg hex, getD_set_eq]
        by_cases hjk : j = k
        · subst hjk
          rw [if_pos ⟨rfl, hjlt⟩, if_pos ⟨w, List.mem_cons_self w ws, hj⟩]
        · have hnot : ¬ ∃ w2 ∈ w :: ws, dictGet wl w2 = some k := by
            rintro ⟨w2, hw2, h2⟩
            rcases List.mem_cons.mp hw2 with rfl | hw2
            · rw [hj] at h2
              exact hjk (Option.some.inj h2)
            · exact hex ⟨w2, hw2, h2⟩
          rw [if_neg (fun hc => hjk hc.1), if_neg hnot]

/-- When some token of the list is absent from the dictionary (and every
present token has an in-range index), the assignment fold raises `KeyError`. -/
theorem setTok_fold_err (wl : List (List Nat × Nat)) :
    ∀ (ws : List (List Nat)) (row : List ℚ),
      (∀ w ∈ ws, ∀ j, dictGet wl w = some j → j < row.length) →
      (∃ w ∈ ws, dictGet wl w = none) →
      ws.foldlM (setTok wl) row = Except.error "KeyError" := by
  intro ws
  induction ws with
  | nil =>
    intro row _ h
    obtain ⟨w, hw, _⟩ := h
    exact absurd hw (List.not_mem_nil w)
  | cons w ws ih =>
    intro row hbound hex
    rw [List.foldlM_cons]
    cases hd : dictGet wl w with
    | none =>
      have hstep : setTok wl row w = Except.error "KeyError" := by simp [setTok, hd]
      rw [hstep, error_bind]
    | some j =>
      have hjlt := hbound w (List.mem_cons_self w ws) j hd
      have hstep : setTok wl row w = Except.ok (row.set j 1) := by simp [setTok, hd, hjlt]
      rw [hstep, ok_bind]
      refine ih (row.set j 1) ?_ ?_
      · intro w2 hw2 j2 hj2
        have := hbound w2 (List.mem_cons_of_mem w hw2) j2 hj2
        simpa using this
      · obtain ⟨w2, hw2, h2⟩ := hex
        rcases List.mem_cons.mp hw2 with rfl | hw2
        · rw [hd] at h2
          cases h2
        · exact ⟨w2, hw2, h2⟩

/-- If every element maps to a success, `mapM` succeeds. -/
theorem mapM_ok_of_all {α β : Type} (f : α → Except String β) :
    ∀ l : List α, (∀ a ∈ l, ∃ b, f a = Except.ok b) →
      ∃ M, l.mapM f = Except.ok M := by
  intro l
  induction l with
  | nil => exact fun _ => ⟨[], rfl⟩
  | cons a l ih =>
    intro h
    obtain ⟨b, hb⟩ := h a (List.mem_cons_self a l)
    obtain ⟨M, hM⟩ := ih (fun x hx => h x (List.mem_cons_of_mem a hx))
    refine ⟨b :: M, ?_⟩
    rw [List.mapM_cons, hb, ok_bind, hM, ok_bind, pure_eq_ok]

/-- A successful `mapM` has one output per input, elementwise. -/
theorem mapM_ok_spec {α β : Type} (f : α → Except String β) :
    ∀ (l : List α) (M : List β), l.mapM f = Except.ok M →
      M.length = l.length ∧
      ∀ (i : Nat) (d : α) (d2 : β), i < l.length →
        f (l.getD i d) = Except.ok (M.getD i d2) := by
  intro l
  induction l with
  | nil =>
    intro M h
    rw [List.mapM_nil, pure_eq_ok] at h
    have hM : ([] : List β) = M := by injection h
    subst hM
    exact ⟨rfl, fun i d d2 hi => absurd hi (Nat.not_lt_zero i)⟩
  | cons a l ih =>
    intro M h
    rw [List.mapM_cons] at h
    cases ha : f a with
    | error e => rw [ha, error_bind] at h; simp at h
    | ok b =>
      rw [ha, ok_bind] at h
      cases hl : l.mapM f with
      | error e => rw [hl, error_bind] at h; simp at h
      | ok bs =>
        rw [hl, ok_bind, pure_eq_ok] at h
        have hM : b :: bs = M := by injection h
        subst hM
        obtain ⟨hlen, hchar⟩ := ih bs hl
        refine ⟨by simp [hlen], ?_⟩
        intro i d d2 hi
        cases i with
        | zero => simpa using ha
        | succ i => simpa using hchar i d d2 (by simpa using hi)

/-- If every element maps to a success or to `KeyError` and at least one
maps to `KeyError`, `mapM` propagates `KeyError`. -/
theorem mapM_err_spec {α β : Type} (f : α → Except String β) :
    ∀ l : List α,
      (∀ a ∈ l, (∃ b, f a = Except.ok b) ∨ f a = Except.error "KeyError") →
      (∃ a ∈ l, f a = Except.error "KeyError") →
      l.mapM f = Except.error "KeyError" := by
  intro l
  induction l with
  | nil =>
    intro _ h
    obtain ⟨a, ha, _⟩ := h
    exact absurd ha (List.not_mem_nil a)
  | cons a l ih =>
    intro hall hex
    rw [List.mapM_cons]
    rcases hall a (List.mem_cons_self a l) with ⟨b, hb⟩ | hb
    · rw [hb, ok_bind]
      have hrec : l.mapM f = Except.error "KeyError" := by
        refine ih (fun x hx => hall x (List.mem_cons_of_mem a hx)) ?_
        obtain ⟨x, hx, h2⟩ := hex
        rcases List.mem_cons.mp hx with rfl | hx
        · rw [hb] at h2
          cases h2
        · exact ⟨x, hx, h2⟩
      rw [hrec, error_bind]
    · rw [hb, error_bind]

/-- Indices stored in a well-formed dictionary are in range for a fresh
zero row. -/
theorem dictGet_bound (wl : List (List Nat × Nat))
    (hwf : ∀ p ∈ wl, p.2 < wl.length) (w : List Nat) (j : Nat)
    (hj : dictGet wl w = some j) : j < (List.replicate wl.length (0 : ℚ)).length := by
  obtain ⟨p, hp, hpj⟩ := dictGet_some_mem wl w j hj
  have := hwf p hp
  rw [List.length_replicate]
  omega

/-- Under a well-formed dictionary, a line's row either succeeds or raises
`KeyError` (never `IndexError`). -/
theorem lineRow_cases (wl : List (List Nat × Nat))
    (hwf : ∀ p ∈ wl, p.2 < wl.length) (line : List Nat) :
    (∃ r, lineRow wl wl.length line = Except.ok r) ∨
      lineRow wl wl.length line = Except.error "KeyError" := by
  by_cases hex : ∃ w ∈ extract_words line, dictGet wl w = none
  · right
    exact setTok_fold_err wl (extract_words line) (List.replicate wl.length 0)
      (fun w _ j hj => dictGet_bound wl hwf w j hj) hex
  · left
    have hfound : ∀ w ∈ extract_words line, ∃ j, dictGet wl w = some j ∧
        j < (List.replicate wl.length (0 : ℚ)).length := by
      intro w hw
      cases hd : dictGet wl w with
      | none => exact absurd ⟨w, hw, hd⟩ hex
      | some j => exact ⟨j, rfl, dictGet_bound wl hwf w j hd⟩
    obtain ⟨r, hr, _, _⟩ := setTok_fold_ok wl (extract_words line)
      (List.replicate wl.length 0) hfound
    exact ⟨r, hr⟩

/-- C8: under a well-formed vocabulary, `extract_feature_vectors` sets cell
`(i, vocabulary[token])` to 1 for every distinct token of document `i` and
leaves all other cells 0 (duplicates change nothing, since the
characterization is pure presence); and when some token of the corpus is
absent from the vocabulary the lookup failure `KeyError` propagates. -/
theorem extract_feature_vectors_presence (lines : List (List Nat))
    (wl : List (List Nat × Nat)) (hwf : ∀ p ∈ wl, p.2 < wl.length) :
    ((∀ line ∈ lines, ∀ w ∈ extract_words line, ∃ j, dictGet wl w = some j) →
      ∃ M, extract_feature_vectors lines wl = Except.ok M ∧ M.length = lines.length ∧
        ∀ i, i < lines.length →
          (M.getD i []).length = wl.length ∧
          ∀ k, (M.getD i []).getD k 0 =
            if ∃ w ∈ extract_words (lines.getD i []), dictGet wl w = some k then 1
            else 0) ∧
    ((∃ line ∈ lines, ∃ w ∈ extract_words line, dictGet wl w = none) →
      extract_feature_vectors lines wl = Except.error "KeyError") := by
  constructor
  · intro hfound
    have hok_line : ∀ line ∈ lines, ∃ r, lineRow wl wl.length line = Except.ok r ∧
        r.length = wl.length ∧
        ∀ k, r.getD k 0 =
          if ∃ w ∈ extract_words line, dictGet wl w = some k then 1 else 0 := by
      intro line hline
      obtain ⟨r, hr, hrlen, hrchar⟩ := setTok_fold_ok wl (extract_words line)
        (List.replicate wl.length 0)
        (by
          intro w hw
          obtain ⟨j, hj⟩ := hfound line hline w hw
          exact ⟨j, hj, dictGet_bound wl hwf w j hj⟩)
      refine ⟨r, hr, by simpa using hrlen, ?_⟩
      intro k
      rw [hrchar k]
      split_ifs
      · rfl
      · simp
    obtain ⟨M, hM⟩ := mapM_ok_of_all (lineRow wl wl.length) lines
      (fun line hline => ((hok_line line hline).imp (fun r hr => hr.1)))
    obtain ⟨hlen, hchar⟩ := mapM_ok_spec (lineRow wl wl.length) lines M hM
    refine ⟨M, hM, hlen, ?_⟩
    intro i hi
    have hline_mem : lines.getD i [] ∈ lines := by
      rw [List.getD_eq_getElem lines [] hi]
      exact List.getElem_mem hi
    obtain ⟨r, hr, hrlen, hrchar⟩ := hok_line (lines.getD i []) hline_mem
    have h1 := hchar i [] [] hi
    rw [hr] at h1
    have hreq : r = M.getD i [] := by injection h1
    subst hreq
    exact ⟨hrlen, hrchar⟩
  · rintro ⟨line, hline, w, hw, hnone⟩
    refine mapM_err_spec (lineRow wl wl.length) lines ?_ ?_
    · intro l hl
      rcases lineRow_cases wl hwf l with ⟨r, hr⟩ | hr
      · exact Or.inl ⟨r, hr⟩
      · exact Or.inr hr
    · refine ⟨line, hline, ?_⟩
      exact setTok_fold_err wl (extract_words line) (List.replicate wl.length 0)
        (fun w2 _ j hj => dictGet_bound wl hwf w2 j hj) ⟨w, hw, hnone⟩

/-- A `flatMap` whose blocks are all singletons is the identity. -/
theorem flatMap_id_of (s : List Nat) (f : Nat → List Nat)
    (h : ∀ a ∈ s, f a = [a]) : s.flatMap f = s := by
  induction s with
  | nil => simp
  | cons a s ih =>
    rw [List.flatMap_cons, h a (List.mem_cons_self a s),
      ih (fun b hb => h b (List.mem_cons_of_mem a hb))]
    rfl

/-- Replacing characters that do not occur in a string leaves it unchanged. -/
theorem foldl_replaceChar_id :
    ∀ (ps : List Nat) (s : List Nat), (∀ a ∈ s, a ∉ ps) →
      ps.foldl (fun acc c => replaceChar c acc) s = s := by
  intro ps
  induction ps with
  | nil => intro s _; rfl
  | cons p ps ih =>
    intro s h
    rw [List.foldl_cons]
    have h1 : replaceChar p s = s := by
      refine flatMap_id_of s _ ?_
      intro a ha
      have := h a ha
      rw [if_neg (fun hc => this (by rw [hc]; exact List.mem_cons_self p ps))]
    rw [h1]
    exact ih s (fun a ha => fun hc => h a ha (List.mem_cons_of_mem p hc))

/-- Whitespace codepoints are not punctuation. -/
theorem isPySpace_not_punct (a : Nat) (h : isPySpace a = true) : a ∉ punctList := by
  simp only [isPySpace, decide_eq_true_eq, List.mem_cons, List.not_mem_nil, or_false] at h
  rcases h with rfl | rfl | rfl | rfl | rfl | rfl <;> decide

/-- Whitespace codepoints are fixed by lowercasing. -/
theorem pyToLower_space (a : Nat) (h : isPySpace a = true) : pyToLower a = a := by
  simp only [isPySpace, decide_eq_true_eq, List.mem_cons, List.not_mem_nil, or_false] at h
  rcases h with rfl | rfl | rfl | rfl | rfl | rfl <;> decide

/-- Splitting an all-whitespace string yields no words. -/
theorem splitAux_all_space (s : List Nat) (h : ∀ c ∈ s, isPySpace c = true) :
    splitAux s [] = [] := by
  induction s with
  | nil => rfl
  | cons c cs ih =>
    simp only [splitAux, h c (List.mem_cons_self c cs), if_true, if_pos rfl]
    exact ih (fun a ha => h a (List.mem_cons_of_mem c ha))

/-- Tokenizing a blank (all-whitespace) line yields no tokens. -/
theorem extract_words_all_space (line : List Nat)
    (h : ∀ c ∈ line, isPySpace c = true) : extract_words line = [] := by
  unfold extract_words pySplit
  have h1 : spacePunct line = line :=
    foldl_replaceChar_id punctList line (fun a ha => isPySpace_not_punct a (h a ha))
  rw [h1]
  have h2 : line.map pyToLower = line := by
    rw [List.map_congr_left (fun a ha => pyToLower_space a (h a ha))]
    exact List.map_id' line
  rw [h2]
  exact splitAux_all_space line h

/-- C10: the feature matrix has exactly one row per line of the file (blank
lines included), and the row of a blank (all-whitespace) line is all zeros. -/
theorem extract_feature_vectors_row_per_line (lines : List (List Nat))
    (wl : List (List Nat × Nat)) :
    (∀ M, extract_feature_vectors lines wl = Except.ok M → M.length = lines.length) ∧
    (∀ i, i < lines.length → (∀ c ∈ lines.getD i [], isPySpace c = true) →
      ∀ M, extract_feature_vectors lines wl = Except.ok M →
        M.getD i [] = List.replicate wl.length 0) := by
  constructor
  · intro M hM
    exact (mapM_ok_spec (lineRow wl wl.length) lines M hM).1
  · intro i hi hblank M hM
    obtain ⟨hlen, hchar⟩ := mapM_ok_spec (lineRow wl wl.length) lines M hM
    have h1 := hchar i [] [] hi
    have h2 : lineRow wl wl.length (lines.getD i []) =
        Except.ok (List.replicate wl.length 0) := by
      unfold lineRow
      rw [extract_words_all_space (lines.getD i []) hblank]
      rfl
    rw [h2] at h1
    have h3 : List.replicate wl.length (0 : ℚ) = M.getD i [] := by injection h1
    exact h3.symm

/-- Witness for C8 on the one-line corpus `a b a` (codepoints 97, 32, 98) and
the vocabulary `{a ↦ 0, b ↦ 1}`: both hypotheses hold and the presence
characterization follows. -/
theorem extract_feature_vectors_presence_witness :
    (∀ p ∈ ([([97], 0), ([98], 1)] : List (List Nat × Nat)), p.2 < 2) ∧
    ∃ M, extract_feature_vectors [[97, 32, 98, 32, 97]] [([97], 0), ([98], 1)] =
        Except.ok M ∧
      M.length = 1 ∧
      ∀ i, i < 1 →
        (M.getD i []).length = 2 ∧
        ∀ k, (M.getD i []).getD k 0 =
          if ∃ w ∈ extract_words (([[97, 32, 98, 32, 97]] : List (List Nat)).getD i []),
              dictGet [([97], 0), ([98], 1)] w = some k then 1
          else 0 := by
  constructor
  · decide
  · refine (extract_feature_vectors_presence [[97, 32, 98, 32, 97]]
      [([97], 0), ([98], 1)] (by decide)).1 ?_
    intro line hline w hw
    have hline2 : line = [97, 32, 98, 32, 97] := by
      simpa using hline
    subst hline2
    have hev : extract_words [97, 32, 98, 32, 97] = [[97], [98], [97]] := by decide
    rw [hev] at hw
    fin_cases hw
    · exact ⟨0, by decide⟩
    · exact ⟨1, by decide⟩
    · exact ⟨0, by decide⟩

/-- Witness for C10 on a file with one whitespace-only line and a singleton
vocabulary: the matrix is the single zero row. -/
theorem extract_feature_vectors_row_per_line_witness :
    extract_feature_vectors [[32]] [([97], 0)] = Except.ok [[0]] ∧
    ([[(0 : ℚ)]]).length = 1 ∧
    ([[(0 : ℚ)]]).getD 0 [] = List.replicate 1 (0 : ℚ) := by
  have hw : extract_words [32] = [] :=
    extract_words_all_space [32] (by decide)
  have hrow : lineRow [([97], 0)] 1 [32] = Except.ok [0] := by
    unfold lineRow
    rw [hw]
    rfl
  have hlen1 : ([([97], 0)] : List (List Nat × Nat)).length = 1 := rfl
  have heval : extract_feature_vectors [[32]] [([97], 0)] = Except.ok [[0]] := by
    unfold extract_feature_vectors
    rw [hlen1, List.mapM_cons, hrow, ok_bind, List.mapM_nil, pure_eq_ok, ok_bind,
      pure_eq_ok]
  refine ⟨heval, ?_, ?_⟩
  · exact (extract_feature_vectors_row_per_line [[32]] [([97], 0)]).1 [[0]] heval
  · exact (extract_feature_vectors_row_per_line [[32]] [([97], 0)]).2 0 (by decide)
      (by decide) [[0]] heval

/-- Associativity of `flatMap`. -/
theorem flatMap_flatMap_eq (l : List Nat) (f g : Nat → List Nat) :
    (l.flatMap f).flatMap g = l.flatMap (fun a => (f a).flatMap g) := by
  induction l with
  | nil => rfl
  | cons a l ih => rw [List.flatMap_cons, List.flatMap_cons, List.flatMap_append, ih]

/-- `map` after `flatMap`. -/
theorem map_flatMap_eq (l : List Nat) (f : Nat → List Nat) (g : Nat → Nat) :
    (l.flatMap f).map g = l.flatMap (fun a => (f a).map g) := by
  induction l with
  | nil => rfl
  | cons a l ih => rw [List.flatMap_cons, List.flatMap_cons, List.map_append, ih]

/-- Sequentially replacing each character of a duplicate-free list that does
not contain the space character is the same as one pass that spaces out all
of them at once. -/
theorem foldl_replaceChar_eq :
    ∀ ps : List Nat, ps.Nodup → 32 ∉ ps →
      ∀ s : List Nat, ps.foldl (fun acc c => replaceChar c acc) s =
        s.flatMap (fun a => if a ∈ ps then [32, a, 32] else [a]) := by
  intro ps
  induction ps with
  | nil =>
    intro _ _ s
    rw [List.foldl_nil]
    exact (flatMap_id_of s _ (fun a _ => by simp)).symm
  | cons p ps ih =>
    intro hnd hsp s
    obtain ⟨hpps, hnd2⟩ := List.nodup_cons.mp hnd
    have hsp1 : (32 : Nat) ≠ p := fun hc => hsp (by rw [hc]; exact List.mem_cons_self p ps)
    have hsp2 : (32 : Nat) ∉ ps := fun hc => hsp (List.mem_cons_of_mem p hc)
    rw [List.foldl_cons, ih hnd2 hsp2 (replaceChar p s)]
    unfold replaceChar
    rw [flatMap_flatMap_eq]
    refine List.flatMap_congr ?_
    intro a _
    by_cases hap : a = p
    · subst hap
      rw [if_pos rfl, if_pos (List.mem_cons_self a ps)]
      simp only [List.flatMap_cons, List.flatMap_nil, if_neg hsp2, if_neg hpps]
      rfl
    · rw [if_neg hap]
      simp only [List.flatMap_cons, List.flatMap_nil, List.append_nil]
      by_cases haps : a ∈ ps
      · rw [if_pos haps, if_pos (List.mem_cons_of_mem p haps)]
      · rw [if_neg haps, if_neg (fun hc => (List.mem_cons.mp hc).elim hap haps)]

/-- `spacePunct` in one pass. -/
theorem spacePunct_eq (s : List Nat) : spacePunct s = s.flatMap puncted := by
  unfold spacePunct puncted
  exact foldl_replaceChar_eq punctList (by decide) (by decide) s

/-- `punctedLower` spelled out: punctuation is fixed by lowercasing. -/
theorem punctedLower_eq (a : Nat) :
    punctedLower a = if a ∈ punctList then [32, a, 32] else [pyToLower a] := by
  unfold punctedLower puncted
  split_ifs with h
  · have h1 : pyToLower a = a := by
      have : ∀ c ∈ punctList, pyToLower c = c := by decide
      exact this a h
    simp [h1]
    decide
  · rfl

/-- The lowercased, punctuation-spaced form of a string in one pass. -/
theorem spacePunct_lower_eq (s : List Nat) :
    (spacePunct s).map pyToLower = s.flatMap punctedLower := by
  rw [spacePunct_eq, map_flatMap_eq]
  rfl

/-- Splitting across a whitespace separator splits independently on both
sides, whatever word is in progress. -/
theorem splitAux_append_space (c : Nat) (hc : isPySpace c = true) :
    ∀ (xs ys acc : List Nat),
      splitAux (xs ++ c :: ys) acc = splitAux xs acc ++ splitAux ys [] := by
  intro xs
  induction xs with
  | nil =>
    intro ys acc
    by_cases hacc : acc = []
    · simp [splitAux, hc, hacc]
    · simp [splitAux, hc, hacc]
  | cons x xs ih =>
    intro ys acc
    by_cases hx : isPySpace x = true
    · by_cases hacc : acc = []
      · simp [splitAux, hx, hacc, ih ys []]
      · simp [splitAux, hx, hacc, ih ys []]
    · simp [splitAux, hx, ih ys (x :: acc)]

/-- Splitting a string with no whitespace yields the single in-progress
word (prefixed by the accumulator), or nothing if both are empty. -/
theorem splitAux_no_space (t : List Nat) (h : ∀ c ∈ t, isPySpace c = false) :
    ∀ acc : List Nat,
      splitAux t acc = if acc = [] ∧ t = [] then [] else [acc.reverse ++ t] := by
  induction t with
  | nil =>
    intro acc
    by_cases hacc : acc = []
    · simp [splitAux, hacc]
    · simp [splitAux, hacc]
  | cons a t ih =>
    intro acc
    have ha := h a (List.mem_cons_self a t)
    rw [show splitAux (a :: t) acc = splitAux t (a :: acc) by simp [splitAux, ha]]
    rw [ih (fun c hc => h c (List.mem_cons_of_mem a hc)) (a :: acc)]
    simp

/-- Every word produced by `splitAux` is non-empty, whitespace-free, and
drawn from the input or the accumulator. -/
theorem splitAux_tokens :
    ∀ (s acc : List Nat), (∀ c ∈ acc, isPySpace c = false) →
      ∀ t ∈ splitAux s acc,
        t ≠ [] ∧ ∀ c ∈ t, isPySpace c = false ∧ (c ∈ s ∨ c ∈ acc) := by
  intro s
  induction s with
  | nil =>
    intro acc hacc t ht
    by_cases h : acc = []
    · subst h
      simp [splitAux] at ht
    · rw [show splitAux [] acc = [acc.reverse] by simp [splitAux, h]] at ht
      have ht2 : t = acc.reverse := by simpa using ht
      subst ht2
      refine ⟨by simpa using h, ?_⟩
      intro c hc
      exact ⟨hacc c (List.mem_reverse.mp hc), Or.inr (List.mem_reverse.mp hc)⟩
  | cons a s ih =>
    intro acc hacc t ht
    by_cases ha : isPySpace a = true
    · by_cases h : acc = []
      · subst h
        rw [show splitAux (a :: s) [] = splitAux s [] by simp [splitAux, ha]] at ht
        obtain ⟨h1, h2⟩ := ih [] (by simp) t ht
        refine ⟨h1, fun c hc => ⟨(h2 c hc).1, ?_⟩⟩
        rcases (h2 c hc).2 with hcs | hcs
        · exact Or.inl (List.mem_cons_of_mem a hcs)
        · exact absurd hcs (List.not_mem_nil c)
      · rw [show splitAux (a :: s) acc = acc.reverse :: splitAux s [] by
          simp [splitAux, ha, h]] at ht
        rcases List.mem_cons.mp ht with rfl | ht2
        · refine ⟨by simpa using h, ?_⟩
          intro c hc
          exact ⟨hacc c (List.mem_reverse.mp hc), Or.inr (List.mem_reverse.mp hc)⟩
        · obtain ⟨h1, h2⟩ := ih [] (by simp) t ht2
          refine ⟨h1, fun c hc => ⟨(h2 c hc).1, ?_⟩⟩
          rcases (h2 c hc).2 with hcs | hcs
          · exact Or.inl (List.mem_cons_of_mem a hcs)
          · exact absurd hcs (List.not_mem_nil c)
    · rw [show splitAux (a :: s) acc = splitAux s (a :: acc) by simp [splitAux, ha]] at ht
      have hacc2 : ∀ c ∈ a :: acc, isPySpace c = false := by
        intro c hc
        rcases List.mem_cons.mp hc with rfl | hc
        · exact Bool.not_eq_true _ ▸ (by simpa using ha)
        · exact hacc c hc
      obtain ⟨h1, h2⟩ := ih (a :: acc) hacc2 t ht
      refine ⟨h1, fun c hc => ⟨(h2 c hc).1, ?_⟩⟩
      rcases (h2 c hc).2 with hcs | hcs
      · exact Or.inl (List.mem_cons_of_mem a hcs)
      · rcases List.mem_cons.mp hcs with rfl | hc2
        · exact Or.inl (List.mem_cons_self c s)
        · exact Or.inr hc2

/-- ASCII lowercasing is idempotent. -/
theorem pyToLower_idem (c : Nat) : pyToLower (pyToLower c) = pyToLower c := by
  unfold pyToLower
  split_ifs <;> omega

/-- ASCII lowercasing never creates a punctuation character. -/
theorem pyToLower_not_punct (a : Nat) (h : a ∉ punctList) : pyToLower a ∉ punctList := by
  unfold pyToLower
  split_ifs with h1
  · have h2 : ∀ x ∈ punctList, ¬(97 ≤ x ∧ x ≤ 122) := by decide
    intro hc
    exact h2 _ hc ⟨by omega, by omega⟩
  · exact h

/-- In the lowercased, punctuation-spaced form of any string, punctuation
only occurs as isolated one-character words: any word of length at least 2
is punctuation-free. -/
theorem splitAux_punct_free :
    ∀ (s acc : List Nat), (∀ c ∈ acc, c ∉ punctList) →
      ∀ t ∈ splitAux (s.flatMap punctedLower) acc,
        2 ≤ t.length → ∀ c ∈ t, c ∉ punctList := by
  intro s
  induction s with
  | nil =>
    intro acc hacc t ht
    simp only [List.flatMap_nil] at ht
    by_cases h : acc = []
    · subst h
      simp [splitAux] at ht
    · rw [show splitAux [] acc = [acc.reverse] by simp [splitAux, h]] at ht
      have ht2 : t = acc.reverse := by simpa using ht
      subst ht2
      intro _ c hc
      exact hacc c (List.mem_reverse.mp hc)
  | cons a s ih =>
    intro acc hacc t ht
    rw [List.flatMap_cons, punctedLower_eq] at ht
    by_cases hp : a ∈ punctList
    · rw [if_pos hp] at ht
      simp only [List.cons_append, List.nil_append] at ht
      have hs32 : isPySpace 32 = true := by decide
      have hanp : isPySpace a = false := by
        have hfact : ∀ x ∈ punctList, isPySpace x = false := by decide
        exact hfact a hp
      by_cases h : acc = []
      · subst h
        rw [show splitAux (32 :: a :: 32 :: s.flatMap punctedLower) [] =
            [a] :: splitAux (s.flatMap punctedLower) [] by
          simp [splitAux, hs32, hanp]] at ht
        rcases List.mem_cons.mp ht with rfl | ht2
        · intro hlen
          simp at hlen
        · exact ih [] (by simp) t ht2
      · rw [show splitAux (32 :: a :: 32 :: s.flatMap punctedLower) acc =
            acc.reverse :: [a] :: splitAux (s.flatMap punctedLower) [] by
          simp [splitAux, hs32, hanp, h]] at ht
        rcases List.mem_cons.mp ht with rfl | ht2
        · intro _ c hc
          exact hacc c (List.mem_reverse.mp hc)
        · rcases List.mem_cons.mp ht2 with rfl | ht3
          · intro hlen
            simp at hlen
          · exact ih [] (by simp) t ht3
    · rw [if_neg hp] at ht
      simp only [List.singleton_append] at ht
      by_cases hsp : isPySpace (pyToLower a) = true
      · by_cases h : acc = []
        · subst h
          rw [show splitAux (pyToLower a :: s.flatMap punctedLower) [] =
              splitAux (s.flatMap punctedLower) [] by simp [splitAux, hsp]] at ht
          exact ih [] (by simp) t ht
        · rw [show splitAux (pyToLower a :: s.flatMap punctedLower) acc =
              acc.reverse :: splitAux (s.flatMap punctedLower) [] by
            simp [splitAux, hsp, h]] at ht
          rcases List.mem_cons.mp ht with rfl | ht2
          · intro _ c hc
            exact hacc c (List.mem_reverse.mp hc)
          · exact ih [] (by simp) t ht2
      · rw [show splitAux (pyToLower a :: s.flatMap punctedLower) acc =
            splitAux (s.flatMap punctedLower) (pyToLower a :: acc) by
          simp [splitAux, hsp]] at ht
        refine ih (pyToLower a :: acc) ?_ t ht
        intro c hc
        rcases List.mem_cons.mp hc with rfl | hc
        · exact pyToLower_not_punct a hp
        · exact hacc c hc

/-- Every token produced by `extract_words` is non-empty, whitespace-free,
fixed by lowercasing, and, if it has two or more characters,
punctuation-free. -/
theorem extract_words_tokens (s : List Nat) :
    ∀ t ∈ extract_words s,
      t ≠ [] ∧ (∀ c ∈ t, isPySpace c = false) ∧ (∀ c ∈ t, pyToLower c = c) ∧
        (2 ≤ t.length → ∀ c ∈ t, c ∉ punctList) := by
  intro t ht
  have hu : extract_words s = splitAux (s.flatMap punctedLower) [] := by
    unfold extract_words pySplit
    rw [spacePunct_lower_eq]
  rw [hu] at ht
  obtain ⟨h1, h2⟩ := splitAux_tokens (s.flatMap punctedLower) [] (by simp) t ht
  refine ⟨h1, fun c hc => (h2 c hc).1, ?_, ?_⟩
  · intro c hc
    rcases (h2 c hc).2 with hcs | hcs
    · obtain ⟨a, ha, hca⟩ := List.mem_flatMap.mp hcs
      rw [punctedLower_eq] at hca
      by_cases hp : a ∈ punctList
      · rw [if_pos hp] at hca
        have hPfix : ∀ x ∈ punctList, pyToLower x = x := by decide
        have hca2 : c = 32 ∨ c = a ∨ c = 32 := by simpa using hca
        rcases hca2 with rfl | rfl | rfl
        · decide
        · exact hPfix c hp
        · decide
      · rw [if_neg hp] at hca
        have hca2 : c = pyToLower a := by simpa using hca
        rw [hca2]
        exact pyToLower_idem a
    · exact absurd hcs (List.not_mem_nil c)
  · intro hlen
    exact splitAux_punct_free s [] (by simp) t ht hlen

/-- Tokenizing a single well-formed token returns exactly that token. -/
theorem extract_words_single (t : List Nat) (h1 : t ≠ [])
    (h2 : ∀ c ∈ t, isPySpace c = false) (h3 : ∀ c ∈ t, pyToLower c = c)
    (h4 : 2 ≤ t.length → ∀ c ∈ t, c ∉ punctList) :
    extract_words t = [t] := by
  by_cases hpf : ∀ c ∈ t, c ∉ punctList
  · have e1 : spacePunct t = t := foldl_replaceChar_id punctList t hpf
    have e2 : t.map pyToLower = t := by
      rw [List.map_congr_left h3]
      exact List.map_id' t
    unfold extract_words pySplit
    rw [e1, e2, splitAux_no_space t h2 []]
    simp [h1]
  · push_neg at hpf
    obtain ⟨c, hc, hcp⟩ := hpf
    have hlen2 : ¬ 2 ≤ t.length := fun hge => (h4 hge c hc) hcp
    have hpos : 0 < t.length := List.length_pos.mpr h1
    have h5 : t.length = 1 := by omega
    obtain ⟨a, rfl⟩ := List.length_eq_one.mp h5
    have hca : c = a := by simpa using hc
    subst hca
    unfold extract_words pySplit
    rw [spacePunct_lower_eq, List.flatMap_cons, List.flatMap_nil, List.append_nil,
      punctedLower_eq, if_pos hcp]
    have hs32 : isPySpace 32 = true := by decide
    have hcns : isPySpace c = false := by
      have hfact : ∀ x ∈ punctList, isPySpace x = false := by decide
      exact hfact c hcp
    simp [splitAux, hs32, hcns]

/-- Tokenizing across a joining space concatenates the token lists. -/
theorem extract_words_append_space (u v : List Nat) :
    extract_words (u ++ 32 :: v) = extract_words u ++ extract_words v := by
  unfold extract_words pySplit
  rw [spacePunct_lower_eq, spacePunct_lower_eq, spacePunct_lower_eq,
    List.flatMap_append, List.flatMap_cons]
  have h32 : punctedLower 32 = [32] := by decide
  rw [h32, List.singleton_append]
  exact splitAux_append_space 32 (by decide) (u.flatMap punctedLower)
    (v.flatMap punctedLower) []

/-- Tokenizing the space-joined form of a list of well-formed tokens
recovers the list. -/
theorem extract_words_join :
    ∀ ws : List (List Nat),
      (∀ w ∈ ws, w ≠ [] ∧ (∀ c ∈ w, isPySpace c = false) ∧
        (∀ c ∈ w, pyToLower c = c) ∧ (2 ≤ w.length → ∀ c ∈ w, c ∉ punctList)) →
      extract_words (joinSp ws) = ws := by
  intro ws
  induction ws with
  | nil => intro _; rfl
  | cons w ws ih =>
    intro h
    have hw := h w (List.mem_cons_self w ws)
    cases ws with
    | nil =>
      exact extract_words_single w hw.1 hw.2.1 hw.2.2.1 hw.2.2.2
    | cons x ws2 =>
      rw [show joinSp (w :: x :: ws2) = w ++ 32 :: joinSp (x :: ws2) from rfl,
        extract_words_append_space,
        extract_words_single w hw.1 hw.2.1 hw.2.2.1 hw.2.2.2,
        ih (fun v hv => h v (List.mem_cons_of_mem w hv))]
      rfl

/-- C9: tokenization is idempotent under its own normalization: tokenizing
the whitespace-joined token sequence produced by `extract_words` yields the
same token sequence as tokenizing the original string. -/
theorem extract_words_idempotent (s : List Nat) :
    extract_words (joinSp (extract_words s)) = extract_words s :=
  extract_words_join (extract_words s) (extract_words_tokens s)
